import Mathlib

/-!
Verification of the generic hashtable from the Go-Series repository
(package `hashtable`): the type `Table(K, V)` with its operations
`New`, `Get` and `Insert`.

The Go code is embedded shallowly:

* `kv` and `Table` mirror the Go structs; Go's `int` is modelled as `Int`
  (no arithmetic is performed by the table code itself, so no wrapping
  is needed), and the bucket array `[][]kv` as `List (List (kv K V))`.
* Go slice indexing `t.table[i]` panics when `i` is out of range
  (negative or `≥ len`), so `Get` and `Insert` return an `Option`:
  `none` models the runtime panic of an out-of-range index.
* The Go zero value `var zero V` is modelled by `default` from an
  `Inhabited V` instance; Go key equality `==` (available because `K`
  is `comparable`) by `DecidableEq K`.
-/

set_option autoImplicit false

namespace Hashtable

variable {K V : Type}

/-- Go struct `kv(K comparable, V interface{}) { Key K; Value V }`:
a key/value pair stored in a bucket of a `Table`. -/
structure kv (K V : Type) where
  Key : K
  Value : V
  deriving DecidableEq, Repr

/-- Go struct `Table(K comparable, V interface{})`: a basic generic
hashtable with hash function `hash`, bucket count `m`, and bucket
array `table`. -/
structure Table (K V : Type) where
  hash : K → Int → Int
  m : Int
  table : List (List (kv K V))

/-- Go constructor `New(m int, hash func(K, int) int) *Table(K, V)`:
builds a table whose `table` field is `make([][]kv(K, V), m)`, an array
of `m` empty buckets.  `make` with a negative length panics at runtime,
modelled by `none`. -/
def New (m : Int) (hash : K → Int → Int) : Option (Table K V) :=
  if m < 0 then none
  else some { hash := hash, m := m, table := List.replicate m.toNat [] }

/-- The loop body of Go `Get`:
`for j, kv := range bucket { if key == kv.Key { return bucket[j].Value, true } }`,
returning `some value` on the first entry whose key equals `key` and
`none` when the scan falls off the end of the bucket. -/
def getLoop [DecidableEq K] (key : K) : List (kv K V) → Option V
  | [] => none
  | e :: rest => if key = e.Key then some e.Value else getLoop key rest

/-- Go method `Get(key K) (V, bool)`: hashes `key` to bucket index
`i := t.hash(key, t.m)`, scans `t.table[i]` for a matching key, and
returns the value with a found flag, or the zero value `var zero V`
with `false`.  The slice access `t.table[i]` panics for an out-of-range
`i`, modelled by the `none` branch. -/
def Table.Get [DecidableEq K] [Inhabited V] (t : Table K V) (key : K) : Option (V × Bool) :=
  let i := t.hash key t.m
  if 0 ≤ i ∧ i < (t.table.length : Int) then
    match getLoop key (t.table.getD i.toNat []) with
    | some v => some (v, true)
    | none => some (default, false)
  else none

/-- The loop and append of Go `Insert`: scan the bucket, and on the first
entry with a matching key overwrite its `Value` in place
(`t.table[i][j].Value = value`, keeping the stored `Key`) and stop;
if no entry matches, append `kv{Key: key, Value: value}` at the end. -/
def insertLoop [DecidableEq K] (key : K) (value : V) : List (kv K V) → List (kv K V)
  | [] => [{ Key := key, Value := value }]
  | e :: rest =>
    if key = e.Key then { Key := e.Key, Value := value } :: rest
    else e :: insertLoop key value rest

/-- Go method `Insert(key K, value V)`: hashes `key` to bucket index
`i := t.hash(key, t.m)` and replaces bucket `i` by the result of the
scan-overwrite-or-append loop.  The slice access `t.table[i]` panics
for an out-of-range `i`, modelled by the `none` branch. -/
def Table.Insert [DecidableEq K] (t : Table K V) (key : K) (value : V) : Option (Table K V) :=
  let i := t.hash key t.m
  if 0 ≤ i ∧ i < (t.table.length : Int) then
    some { t with table := t.table.set i.toNat (insertLoop key value (t.table.getD i.toNat [])) }
  else none

/-- Bucket `j` of a table (the empty bucket when `j` is out of range);
a convenience accessor for stating properties. -/
def Table.bucket (t : Table K V) (j : Nat) : List (kv K V) :=
  t.table.getD j []

/-- The spec's precondition on a caller-supplied hash function:
`0 <= hashFn(k, m) < m` for every key. -/
def HashInRange (hashFn : K → Int → Int) (m : Int) : Prop :=
  ∀ k, 0 ≤ hashFn k m ∧ hashFn k m < m

/-- Well-formedness of a table: the bucket array has `m` entries (as
`New` establishes) and the stored hash function is in range for `m`. -/
def Table.WF (t : Table K V) : Prop :=
  (t.table.length : Int) = t.m ∧ HashInRange t.hash t.m

/-- A key is present in the table: some bucket holds an entry with it. -/
def Table.MemKey (t : Table K V) (k : K) : Prop :=
  ∃ b ∈ t.table, ∃ e ∈ b, e.Key = k

/-- Position of the first entry with the given key within a bucket. -/
def keyIdx [DecidableEq K] (key : K) : List (kv K V) → Option Nat
  | [] => none
  | e :: rest => if key = e.Key then some 0 else (keyIdx key rest).map (· + 1)

/-- Total number of entries with the given key, across all buckets. -/
def countKey [DecidableEq K] (t : Table K V) (k : K) : Nat :=
  (t.table.map fun b => b.countP fun e => decide (e.Key = k)).sum

/-- The table invariant: in every bucket the keys are pairwise distinct,
and every entry sits in the bucket its key hashes to. -/
def Table.Inv [DecidableEq K] (t : Table K V) : Prop :=
  ∀ j, j < t.table.length →
    ((t.bucket j).map kv.Key).Nodup ∧ ∀ e ∈ t.bucket j, t.hash e.Key t.m = (j : Int)

/-- An operation on the table: a `Get` or an `Insert` call. -/
inductive Op (K V : Type) where
  | get (key : K)
  | insert (key : K) (value : V)
  deriving DecidableEq

/-- Effect of one method call on the receiver table: `Get` reads but
never assigns to the receiver, so the table is returned unchanged when
the call completes (and `none` models its panic on an out-of-range
index); `Insert` updates the table. -/
def applyOp [DecidableEq K] [Inhabited V] (t : Table K V) : Op K V → Option (Table K V)
  | Op.get k => (t.Get k).map fun _ => t
  | Op.insert k v => t.Insert k v

/-- Run a sequence of operations from a starting table, propagating
panics. -/
def runOps [DecidableEq K] [Inhabited V] (t : Table K V) : List (Op K V) → Option (Table K V)
  | [] => some t
  | op :: rest =>
    match applyOp t op with
    | some t' => runOps t' rest
    | none => none

/-- Concrete hash function used by witnesses: Euclidean remainder,
in range for every positive modulus. -/
def hash0 : Int → Int → Int := fun k m => k % m

/-- Concrete table with three empty buckets used by witnesses. -/
def T0 : Table Int Int :=
  { hash := hash0, m := 3, table := [[], [], []] }

/-- `T0` after `Insert 2 5`. -/
def T1 : Table Int Int :=
  { hash := hash0, m := 3, table := [[], [], [{ Key := 2, Value := 5 }]] }

/-- `T0` after `Insert 1 10` and `Insert 2 20`. -/
def T2 : Table Int Int :=
  { hash := hash0, m := 3,
    table := [[], [{ Key := 1, Value := 10 }], [{ Key := 2, Value := 20 }]] }

/-- `T1` after `Insert 2 9`: the value for key `2` is overwritten. -/
def T1b : Table Int Int :=
  { hash := hash0, m := 3, table := [[], [], [{ Key := 2, Value := 9 }]] }

/-- `T0` after `Insert 1 10`, `Insert 1 20`, `Insert 4 40`: keys `1` and
`4` collide in bucket `1`. -/
def T4 : Table Int Int :=
  { hash := hash0, m := 3,
    table := [[], [{ Key := 1, Value := 20 }, { Key := 4, Value := 40 }], []] }

/-- `T0` after `Insert 0 1` and `Insert 3 2`: keys `0` and `3` collide
in bucket `0`. -/
def T5 : Table Int Int :=
  { hash := hash0, m := 3,
    table := [[{ Key := 0, Value := 1 }, { Key := 3, Value := 2 }], [], []] }

/-- A table whose hash function violates the range precondition: it
returns the bucket count itself, one past the last valid index. -/
def BadT : Table Int Int :=
  { hash := fun _ m => m, m := 1, table := [[]] }

end Hashtable

namespace Hashtable

variable {K V : Type}

theorem getLoop_eq_none [DecidableEq K] {key : K} {l : List (kv K V)} :
    getLoop key l = none ↔ ∀ e ∈ l, key ≠ e.Key := by
  induction l with
  | nil => simp [getLoop]
  | cons e rest ih =>
    by_cases h : key = e.Key <;> simp [getLoop, h, ih]

theorem getLoop_insertLoop_self [DecidableEq K] (key : K) (v : V) (l : List (kv K V)) :
    getLoop key (insertLoop key v l) = some v := by
  induction l with
  | nil => simp [insertLoop, getLoop]
  | cons e rest ih =>
    by_cases h : key = e.Key <;> simp [insertLoop, getLoop, h, ih]

theorem getLoop_insertLoop_ne [DecidableEq K] {key key' : K} (h : key' ≠ key)
    (v : V) (l : List (kv K V)) :
    getLoop key' (insertLoop key v l) = getLoop key' l := by
  induction l with
  | nil => simp [insertLoop, getLoop, h]
  | cons e rest ih =>
    by_cases he : key = e.Key
    · have : key' ≠ e.Key := he ▸ h
      simp [insertLoop, getLoop, he, this]
    · by_cases he' : key' = e.Key <;> simp [insertLoop, getLoop, he, he', ih]

theorem insertLoop_append_of_none [DecidableEq K] {key : K} {l : List (kv K V)}
    (h : getLoop key l = none) (v : V) :
    insertLoop key v l = l ++ [{ Key := key, Value := v }] := by
  induction l with
  | nil => simp [insertLoop]
  | cons e rest ih =>
    by_cases he : key = e.Key
    · simp [getLoop, he] at h
    · simp only [getLoop, if_neg he] at h
      simp [insertLoop, he, ih h]

theorem insertLoop_keys_of_some [DecidableEq K] {key : K} {l : List (kv K V)} {w : V}
    (h : getLoop key l = some w) (v : V) :
    (insertLoop key v l).map kv.Key = l.map kv.Key := by
  induction l with
  | nil => simp [getLoop] at h
  | cons e rest ih =>
    by_cases he : key = e.Key
    · simp [insertLoop, he]
    · simp only [getLoop, if_neg he] at h
      simp [insertLoop, he, ih h]

theorem mem_insertLoop [DecidableEq K] {key : K} {v : V} {l : List (kv K V)} {e : kv K V}
    (h : e ∈ insertLoop key v l) : e.Key = key ∨ e ∈ l := by
  induction l with
  | nil =>
    simp [insertLoop] at h
    left
    rw [h]
  | cons e₀ rest ih =>
    by_cases he : key = e₀.Key
    · simp only [insertLoop, if_pos he, List.mem_cons] at h
      rcases h with h | h
      · left
        rw [h, he]
      · right
        exact List.mem_cons_of_mem _ h
    · simp only [insertLoop, if_neg he, List.mem_cons] at h
      rcases h with h | h
      · right
        rw [h]
        exact List.mem_cons_self _ _
      · rcases ih h with h' | h'
        · left
          exact h'
        · right
          exact List.mem_cons_of_mem _ h'

theorem insertLoop_length_or [DecidableEq K] (key : K) (v : V) (l : List (kv K V)) :
    (insertLoop key v l).length = l.length ∨
      (insertLoop key v l).length = l.length + 1 := by
  induction l with
  | nil => right; simp [insertLoop]
  | cons e rest ih =>
    by_cases he : key = e.Key
    · left; simp [insertLoop, he]
    · rcases ih with h | h
      · left; simp [insertLoop, he, h]
      · right; simp [insertLoop, he, h]

theorem keyIdx_congr [DecidableEq K] (key : K) {l₁ l₂ : List (kv K V)}
    (h : l₁.map kv.Key = l₂.map kv.Key) : keyIdx key l₁ = keyIdx key l₂ := by
  induction l₁ generalizing l₂ with
  | nil =>
    cases l₂ with
    | nil => rfl
    | cons e rest => simp at h
  | cons e rest ih =>
    cases l₂ with
    | nil => simp at h
    | cons e₂ rest₂ =>
      simp only [List.map_cons, List.cons.injEq] at h
      simp [keyIdx, h.1, ih h.2]

theorem countP_key_eq_count [DecidableEq K] (k : K) (b : List (kv K V)) :
    (b.countP fun e => decide (e.Key = k)) = (b.map kv.Key).count k := by
  induction b with
  | nil => simp
  | cons e rest ih =>
    simp [List.countP_cons, List.count_cons, ih]

end Hashtable

namespace Hashtable

variable {K V : Type}

theorem hash_bounds {t : Table K V} (hwf : t.WF) (k : K) :
    0 ≤ t.hash k t.m ∧ t.hash k t.m < (t.table.length : Int) := by
  obtain ⟨hlen, hr⟩ := hwf
  have h := hr k
  omega

theorem New_some {m : Int} {hashFn : K → Int → Int} {t₀ : Table K V}
    (h : New m hashFn = some t₀) :
    0 ≤ m ∧ t₀ = { hash := hashFn, m := m, table := List.replicate m.toNat [] } := by
  unfold New at h
  split_ifs at h with h'
  exact ⟨by omega, (Option.some_injective _ h).symm⟩

theorem New_WF {m : Int} {hashFn : K → Int → Int} {t₀ : Table K V}
    (h : New m hashFn = some t₀) (hr : HashInRange hashFn m) : t₀.WF := by
  obtain ⟨hm, ht⟩ := New_some h
  subst ht
  refine ⟨?_, hr⟩
  simp [List.length_replicate]
  omega

theorem Get_eq_getLoop [DecidableEq K] [Inhabited V] {t : Table K V} (hwf : t.WF) (key : K) :
    t.Get key =
      match getLoop key (t.bucket (t.hash key t.m).toNat) with
      | some v => some (v, true)
      | none => some (default, false) := by
  have h := hash_bounds hwf key
  simp only [Table.Get, Table.bucket]
  rw [if_pos h]

theorem Insert_some_eq [DecidableEq K] {t t' : Table K V} {k : K} {v : V}
    (h : t.Insert k v = some t') :
    0 ≤ t.hash k t.m ∧ t.hash k t.m < (t.table.length : Int) ∧
      t' = { t with table := t.table.set (t.hash k t.m).toNat (insertLoop k v (t.bucket (t.hash k t.m).toNat)) } := by
  simp only [Table.Insert] at h
  split_ifs at h with hc
  exact ⟨hc.1, hc.2, (Option.some_injective _ h).symm⟩

theorem Insert_eq_set [DecidableEq K] {t : Table K V} (hwf : t.WF) (k : K) (v : V) :
    t.Insert k v = some { t with table := t.table.set (t.hash k t.m).toNat (insertLoop k v (t.bucket (t.hash k t.m).toNat)) } := by
  have h := hash_bounds hwf k
  simp only [Table.Insert, Table.bucket]
  rw [if_pos h]

theorem bucket_set_self {t : Table K V} {i : Nat} (hi : i < t.table.length)
    (b : List (kv K V)) :
    Table.bucket { t with table := t.table.set i b } i = b := by
  simp only [Table.bucket, List.getD, List.get?_eq_getElem?]
  rw [List.getElem?_set_eq_of_lt b hi]
  rfl

theorem bucket_set_ne {t : Table K V} {i j : Nat} (hj : j ≠ i) (b : List (kv K V)) :
    Table.bucket { t with table := t.table.set i b } j = t.bucket j := by
  simp only [Table.bucket, List.getD, List.get?_eq_getElem?]
  rw [List.getElem?_set_ne (Ne.symm hj)]

theorem bucket_mem {t : Table K V} {i : Nat} (hi : i < t.table.length) :
    t.bucket i ∈ t.table := by
  rw [Table.bucket, List.getD_eq_getElem _ _ hi]
  exact List.getElem_mem _

theorem toNat_cast_of_bounds {x : Int} {n : Nat} (h0 : 0 ≤ x) (hn : x < (n : Int)) :
    (x.toNat : Int) = x ∧ x.toNat < n := by
  omega

end Hashtable

namespace Hashtable

variable {K V : Type}

theorem WF_of_fields {t t' : Table K V} (hwf : t.WF)
    (hh : t'.hash = t.hash) (hm : t'.m = t.m) (hl : t'.table.length = t.table.length) :
    t'.WF := by
  rw [Table.WF, hh, hm, hl]
  exact hwf

theorem Insert_fields [DecidableEq K] {t t' : Table K V} {k : K} {v : V}
    (h : t.Insert k v = some t') :
    t'.hash = t.hash ∧ t'.m = t.m ∧ t'.table.length = t.table.length := by
  obtain ⟨_, _, ht'⟩ := Insert_some_eq h
  rw [ht']
  exact ⟨rfl, rfl, by simp⟩

theorem get_insert_self [DecidableEq K] [Inhabited V] {t t' : Table K V} (hwf : t.WF)
    {k : K} {v : V} (h : t.Insert k v = some t') : t'.Get k = some (v, true) := by
  obtain ⟨h0, hlt, ht'⟩ := Insert_some_eq h
  obtain ⟨hh, hm, hl⟩ := Insert_fields h
  have hwf' : t'.WF := WF_of_fields hwf hh hm hl
  rw [Get_eq_getLoop hwf' k]
  have hi : (t.hash k t.m).toNat < t.table.length := by omega
  have hb : t'.bucket (t'.hash k t'.m).toNat
      = insertLoop k v (t.bucket (t.hash k t.m).toNat) := by
    rw [hh, hm, ht']
    exact bucket_set_self hi _
  rw [hb, getLoop_insertLoop_self]

theorem get_insert_ne [DecidableEq K] [Inhabited V] {t t' : Table K V} (hwf : t.WF)
    {k k' : K} {v : V} (h : t.Insert k v = some t') (hne : k' ≠ k) :
    t'.Get k' = t.Get k' := by
  obtain ⟨h0, hlt, ht'⟩ := Insert_some_eq h
  obtain ⟨hh, hm, hl⟩ := Insert_fields h
  have hwf' : t'.WF := WF_of_fields hwf hh hm hl
  rw [Get_eq_getLoop hwf' k', Get_eq_getLoop hwf k']
  have hi : (t.hash k t.m).toNat < t.table.length := by omega
  have hbl : getLoop k' (t'.bucket (t'.hash k' t'.m).toNat)
      = getLoop k' (t.bucket (t.hash k' t.m).toNat) := by
    rw [hh, hm]
    by_cases hij : (t.hash k' t.m).toNat = (t.hash k t.m).toNat
    · rw [hij, ht', bucket_set_self hi, getLoop_insertLoop_ne hne, ← hij]
    · rw [ht', bucket_set_ne hij]
  rw [hbl]

theorem get_not_mem [DecidableEq K] [Inhabited V] {t : Table K V} (hwf : t.WF)
    {k : K} (habs : ¬ t.MemKey k) : t.Get k = some (default, false) := by
  rw [Get_eq_getLoop hwf k]
  have hb := hash_bounds hwf k
  have hi : (t.hash k t.m).toNat < t.table.length := by omega
  have hloop : getLoop k (t.bucket (t.hash k t.m).toNat) = none := by
    rw [getLoop_eq_none]
    intro e he hkey
    exact habs ⟨_, bucket_mem hi, e, he, hkey.symm⟩
  rw [hloop]

theorem applyOp_get_eq [DecidableEq K] [Inhabited V] {t t' : Table K V} {k : K}
    (h : applyOp t (Op.get k) = some t') : t' = t := by
  simp only [applyOp, Option.map_eq_some'] at h
  obtain ⟨_, _, h2⟩ := h
  exact h2.symm

theorem applyOp_fields [DecidableEq K] [Inhabited V] {t t' : Table K V} {op : Op K V}
    (h : applyOp t op = some t') :
    t'.hash = t.hash ∧ t'.m = t.m ∧ t'.table.length = t.table.length := by
  cases op with
  | get k =>
    rw [applyOp_get_eq h]
    exact ⟨rfl, rfl, rfl⟩
  | insert k v => exact Insert_fields h

theorem runOps_fields [DecidableEq K] [Inhabited V] {t t' : Table K V} {ops : List (Op K V)}
    (h : runOps t ops = some t') :
    t'.hash = t.hash ∧ t'.m = t.m ∧ t'.table.length = t.table.length := by
  induction ops generalizing t with
  | nil =>
    simp only [runOps, Option.some_inj] at h
    rw [← h]
    exact ⟨rfl, rfl, rfl⟩
  | cons op rest ih =>
    rw [runOps] at h
    split at h
    · next t₁ hop =>
      obtain ⟨h1, h2, h3⟩ := applyOp_fields hop
      obtain ⟨g1, g2, g3⟩ := ih h
      exact ⟨g1.trans h1, g2.trans h2, g3.trans h3⟩
    · exact absurd h (by simp)

theorem runOps_WF [DecidableEq K] [Inhabited V] {t t' : Table K V} {ops : List (Op K V)}
    (hwf : t.WF) (h : runOps t ops = some t') : t'.WF := by
  obtain ⟨h1, h2, h3⟩ := runOps_fields h
  exact WF_of_fields hwf h1 h2 h3

theorem New_not_MemKey {m : Int} {hashFn : K → Int → Int} {t₀ : Table K V}
    (h : New m hashFn = some t₀) (k : K) : ¬ t₀.MemKey k := by
  obtain ⟨_, ht⟩ := New_some h
  subst ht
  intro hmem
  obtain ⟨b, hb, e, he, _⟩ := hmem
  have hb' := List.eq_of_mem_replicate hb
  rw [hb'] at he
  simp at he

theorem not_MemKey_applyOp [DecidableEq K] [Inhabited V] {t t' : Table K V} {op : Op K V}
    (h : applyOp t op = some t') {k : K} (hk : ¬ t.MemKey k)
    (hop : ∀ v, op ≠ Op.insert k v) : ¬ t'.MemKey k := by
  cases op with
  | get q =>
    rw [applyOp_get_eq h]
    exact hk
  | insert q v =>
    have hqk : q ≠ k := by
      intro hq
      exact hop v (by rw [hq])
    obtain ⟨h0, hlt, ht'⟩ := Insert_some_eq h
    intro hmem
    obtain ⟨b, hb, e, he, hek⟩ := hmem
    rw [ht'] at hb
    rcases List.mem_or_eq_of_mem_set hb with hb' | hb'
    · exact hk ⟨b, hb', e, he, hek⟩
    · rcases mem_insertLoop (hb' ▸ he) with hkey | hmem'
      · exact hqk (by rw [← hkey, hek])
      · have hib : t.bucket (t.hash q t.m).toNat ∈ t.table := bucket_mem (by omega)
        exact hk ⟨_, hib, e, hmem', hek⟩

theorem runOps_not_MemKey [DecidableEq K] [Inhabited V] {t t' : Table K V}
    {ops : List (Op K V)} (h : runOps t ops = some t') {k : K}
    (hk : ¬ t.MemKey k) (hops : ∀ v, Op.insert k v ∉ ops) : ¬ t'.MemKey k := by
  induction ops generalizing t with
  | nil =>
    simp only [runOps, Option.some_inj] at h
    rw [← h]
    exact hk
  | cons op rest ih =>
    rw [runOps] at h
    split at h
    · next t₁ hop =>
      refine ih h ?_ ?_
      · refine not_MemKey_applyOp hop hk ?_
        intro v hv
        exact hops v (by rw [hv]; exact List.mem_cons_self _ _)
      · intro v hv
        exact hops v (List.mem_cons_of_mem _ hv)
    · exact absurd h (by simp)

end Hashtable

namespace Hashtable

variable {K V : Type}

theorem bucket_replicate (hashFn : K → Int → Int) (m : Int) (j : Nat) :
    Table.bucket { hash := hashFn, m := m, table := List.replicate m.toNat [] } j
      = ([] : List (kv K V)) := by
  simp only [Table.bucket, List.getD, List.get?_eq_getElem?, List.getElem?_replicate]
  split <;> rfl

theorem New_Inv [DecidableEq K] {m : Int} {hashFn : K → Int → Int} {t₀ : Table K V}
    (h : New m hashFn = some t₀) : t₀.Inv := by
  obtain ⟨_, ht⟩ := New_some h
  subst ht
  intro j hj
  rw [bucket_replicate]
  simp

theorem Inv_insert [DecidableEq K] {t t' : Table K V} (hinv : t.Inv)
    {k : K} {v : V} (h : t.Insert k v = some t') : t'.Inv := by
  obtain ⟨h0, hlt, ht'⟩ := Insert_some_eq h
  obtain ⟨hh, hm, hl⟩ := Insert_fields h
  have hik : (((t.hash k t.m).toNat : Nat) : Int) = t.hash k t.m := by omega
  have hi : (t.hash k t.m).toNat < t.table.length := by omega
  intro j hj
  rw [hl] at hj
  by_cases hij : j = (t.hash k t.m).toNat
  · have hb : t'.bucket j = insertLoop k v (t.bucket j) := by
      rw [ht', hij]
      exact bucket_set_self hi _
    obtain ⟨hnd, hloc⟩ := hinv j hj
    constructor
    · cases hg : getLoop k (t.bucket j) with
      | some w =>
        rw [hb, insertLoop_keys_of_some hg]
        exact hnd
      | none =>
        rw [hb, insertLoop_append_of_none hg]
        have hknot : k ∉ (t.bucket j).map kv.Key := by
          intro hkmem
          obtain ⟨e, he, hek⟩ := List.mem_map.mp hkmem
          exact (getLoop_eq_none.mp hg e he) hek.symm
        simp [List.nodup_append, hnd, hknot]
    · intro e he
      rw [hb] at he
      rw [hh, hm]
      rcases mem_insertLoop he with hek | he'
      · rw [hek, hij, hik]
      · exact hloc e he'
  · have hb : t'.bucket j = t.bucket j := by
      rw [ht']
      exact bucket_set_ne hij _
    obtain ⟨hnd, hloc⟩ := hinv j hj
    rw [hb, hh, hm]
    exact ⟨hnd, hloc⟩

theorem Inv_applyOp [DecidableEq K] [Inhabited V] {t t' : Table K V} {op : Op K V}
    (hinv : t.Inv) (h : applyOp t op = some t') : t'.Inv := by
  cases op with
  | get q =>
    rw [applyOp_get_eq h]
    exact hinv
  | insert q v => exact Inv_insert hinv h

theorem runOps_Inv [DecidableEq K] [Inhabited V] {t t' : Table K V} {ops : List (Op K V)}
    (hinv : t.Inv) (h : runOps t ops = some t') : t'.Inv := by
  induction ops generalizing t with
  | nil =>
    simp only [runOps, Option.some_inj] at h
    rw [← h]
    exact hinv
  | cons op rest ih =>
    rw [runOps] at h
    split at h
    · next t₁ hop => exact ih (Inv_applyOp hinv hop) h
    · exact absurd h (by simp)

theorem sum_eq_one_of_single {l : List Nat} {j : Nat} (hj : j < l.length)
    (h1 : l[j] = 1) (h0 : ∀ i, (hi : i < l.length) → i ≠ j → l[i] = 0) :
    l.sum = 1 := by
  induction l generalizing j with
  | nil => simp at hj
  | cons a rest ih =>
    cases j with
    | zero =>
      simp only [List.getElem_cons_zero] at h1
      have hrest : rest.sum = 0 := by
        apply List.sum_eq_zero
        intro x hx
        obtain ⟨i, hi, hix⟩ := List.mem_iff_getElem.mp hx
        have := h0 (i + 1) (by simpa using Nat.succ_lt_succ hi) (by simp)
        simpa [hix] using this
      simp [h1, hrest]
    | succ j' =>
      have ha : a = 0 := h0 0 (by simp) (by simp)
      have hj' : j' < rest.length := by simpa using hj
      have h1' : rest[j'] = 1 := by simpa using h1
      have h0' : ∀ i, (hi : i < rest.length) → i ≠ j' → rest[i] = 0 := by
        intro i hi hij
        have := h0 (i + 1) (by simpa using Nat.succ_lt_succ hi) (by simpa using hij)
        simpa using this
      simp [ha, ih hj' h1' h0']

theorem Inv_countKey [DecidableEq K] {t : Table K V} (hinv : t.Inv)
    {k : K} (hk : t.MemKey k) :
    countKey t k = 1 ∧
      ∀ j, j < t.table.length → (∃ e ∈ t.bucket j, e.Key = k) →
        (j : Int) = t.hash k t.m := by
  have hloc : ∀ j, j < t.table.length → (∃ e ∈ t.bucket j, e.Key = k) →
      (j : Int) = t.hash k t.m := by
    intro j hj he
    obtain ⟨e, he, hek⟩ := he
    have h := (hinv j hj).2 e he
    rw [hek] at h
    exact h.symm
  refine ⟨?_, hloc⟩
  obtain ⟨b, hb, e, he, hek⟩ := hk
  obtain ⟨j₀, hj₀, hbj⟩ := List.mem_iff_getElem.mp hb
  have hbucket : t.bucket j₀ = b := by
    rw [Table.bucket, List.getD_eq_getElem _ _ hj₀, hbj]
  have hjlen : j₀ < (t.table.map fun b => b.countP fun e => decide (e.Key = k)).length := by
    simpa using hj₀
  rw [countKey]
  apply sum_eq_one_of_single hjlen
  · have hnd := (hinv j₀ hj₀).1
    rw [hbucket] at hnd
    have hkmem : k ∈ b.map kv.Key := List.mem_map.mpr ⟨e, he, hek⟩
    simp only [List.getElem_map, hbj]
    rw [countP_key_eq_count]
    exact List.count_eq_one_of_mem hnd hkmem
  · intro i hi hij
    have hi' : i < t.table.length := by simpa using hi
    have hbi : t.bucket i = t.table[i] := by
      rw [Table.bucket, List.getD_eq_getElem _ _ hi']
    have hnone : ∀ e' ∈ t.bucket i, e'.Key ≠ k := by
      intro e' he' hek'
      have := hloc i hi' ⟨e', he', hek'⟩
      have hj0eq := hloc j₀ hj₀ ⟨e, hbucket ▸ he, hek⟩
      have : (i : Int) = (j₀ : Int) := by omega
      exact hij (by exact_mod_cast this)
    simp only [List.getElem_map]
    rw [countP_key_eq_count]
    apply List.count_eq_zero_of_not_mem
    intro hkmem
    obtain ⟨e', he', hek'⟩ := List.mem_map.mp hkmem
    exact hnone e' (hbi ▸ he') hek'

end Hashtable

namespace Hashtable

variable {K V : Type}

theorem insert_bucket_length [DecidableEq K] {t t' : Table K V} {k : K} {v : V}
    (h : t.Insert k v = some t') (j : Nat) :
    (t'.bucket j).length = (t.bucket j).length ∨
      (t'.bucket j).length = (t.bucket j).length + 1 := by
  obtain ⟨h0, hlt, ht'⟩ := Insert_some_eq h
  by_cases hij : j = (t.hash k t.m).toNat
  · have hi : (t.hash k t.m).toNat < t.table.length := by omega
    have hb : t'.bucket j = insertLoop k v (t.bucket j) := by
      rw [ht', hij]
      exact bucket_set_self hi _
    rw [hb]
    exact insertLoop_length_or k v _
  · have hb : t'.bucket j = t.bucket j := by
      rw [ht']
      exact bucket_set_ne hij _
    left
    rw [hb]

theorem applyOp_bucket_le [DecidableEq K] [Inhabited V] {t t' : Table K V} {op : Op K V}
    (h : applyOp t op = some t') (j : Nat) :
    (t.bucket j).length ≤ (t'.bucket j).length := by
  cases op with
  | get q =>
    rw [applyOp_get_eq h]
  | insert q v =>
    rcases insert_bucket_length h j with h' | h' <;> omega

theorem runOps_bucket_le [DecidableEq K] [Inhabited V] {t t' : Table K V}
    {ops : List (Op K V)} (h : runOps t ops = some t') (j : Nat) :
    (t.bucket j).length ≤ (t'.bucket j).length := by
  induction ops generalizing t with
  | nil =>
    simp only [runOps, Option.some_inj] at h
    rw [← h]
  | cons op rest ih =>
    rw [runOps] at h
    split at h
    · next t₁ hop => exact le_trans (applyOp_bucket_le hop j) (ih h)
    · exact absurd h (by simp)

theorem mod3_in_range : HashInRange hash0 3 :=
  fun k => ⟨Int.emod_nonneg k (by decide), Int.emod_lt_of_pos k (by decide)⟩

theorem T0_wf : T0.WF :=
  ⟨rfl, mod3_in_range⟩

theorem T2_wf : T2.WF :=
  ⟨rfl, mod3_in_range⟩

end Hashtable

namespace Hashtable

variable {K V : Type}

/-- Claim C1: for every well-formed table (in-range hash function) and
every key `k` and value `v`, `Insert k v` succeeds and a subsequent
`Get k` returns `(v, true)`; this holds in every table state, and every
other key — in particular one sharing `k`'s bucket — is still retrieved
exactly as before, so colliding keys are disambiguated by key equality
within the shared bucket. -/
theorem insert_then_get [DecidableEq K] [Inhabited V] (t : Table K V) (hwf : t.WF)
    (k : K) (v : V) :
    ∃ t', t.Insert k v = some t' ∧ t'.Get k = some (v, true) ∧
      ∀ k', k' ≠ k → t'.Get k' = t.Get k' :=
  ⟨_, Insert_eq_set hwf k v, get_insert_self hwf (Insert_eq_set hwf k v),
    fun _ hk' => get_insert_ne hwf (Insert_eq_set hwf k v) hk'⟩

/-- Witness for C1 at the concrete table `T0` with key `4`, value `7`. -/
theorem insert_then_get_witness :
    T0.WF ∧ ∃ t', T0.Insert 4 7 = some t' ∧ t'.Get 4 = some (7, true) ∧
      ∀ k', k' ≠ 4 → t'.Get k' = T0.Get k' :=
  ⟨T0_wf, insert_then_get T0 T0_wf 4 7⟩

/-- Claim C2: starting from a freshly constructed table with an in-range
hash function, after any sequence of operations that never inserts the
key `k`, `Get k` returns the zero value of `V` together with the flag
`false`, and no panic occurs (the result is `some`): absence is signaled
only through the boolean flag. -/
theorem get_absent_key [DecidableEq K] [Inhabited V] (m : Int) (hashFn : K → Int → Int)
    (t₀ t : Table K V) (ops : List (Op K V)) (k : K)
    (hnew : New m hashFn = some t₀) (hr : HashInRange hashFn m)
    (hrun : runOps t₀ ops = some t) (hk : ∀ v, Op.insert k v ∉ ops) :
    t.Get k = some (default, false) :=
  get_not_mem (runOps_WF (New_WF hnew hr) hrun)
    (runOps_not_MemKey hrun (New_not_MemKey hnew k) hk)

/-- Witness for C2: a fresh 3-bucket table, two inserts and a get of
other keys, then `Get 5` returns `(0, false)`. -/
theorem get_absent_key_witness :
    New 3 hash0 = some T0 ∧ HashInRange hash0 3 ∧
      runOps T0 [Op.insert 1 10, Op.get 5, Op.insert 2 20] = some T2 ∧
      (∀ v, Op.insert (5 : Int) v ∉ [Op.insert (1 : Int) (10 : Int), Op.get 5, Op.insert 2 20]) ∧
      T2.Get 5 = some (default, false) :=
  ⟨rfl, mod3_in_range, rfl, fun v hv => by simp at hv,
    get_absent_key 3 hash0 T0 T2 [Op.insert 1 10, Op.get 5, Op.insert 2 20] 5 rfl
      mod3_in_range rfl (fun v hv => by simp at hv)⟩

/-- Claim C3: on a well-formed table, inserting key `k` with `v₁` and
then with `v₂ ≠ v₁` leaves a table where `Get k` returns `(v₂, true)`,
the entry count of the bucket at `hash k m` is unchanged by the second
insert, and the entry for `k` keeps its position in that bucket. -/
theorem insert_twice_overwrite [DecidableEq K] [Inhabited V] {t t₁ t₂ : Table K V}
    (hwf : t.WF) (k : K) {v₁ v₂ : V} (hne : v₁ ≠ v₂)
    (h₁ : t.Insert k v₁ = some t₁) (h₂ : t₁.Insert k v₂ = some t₂) :
    t₂.Get k = some (v₂, true) ∧
      (t₂.bucket (t.hash k t.m).toNat).length = (t₁.bucket (t.hash k t.m).toNat).length ∧
      keyIdx k (t₂.bucket (t.hash k t.m).toNat) = keyIdx k (t₁.bucket (t.hash k t.m).toNat) := by
  obtain ⟨hh₁, hm₁, hl₁⟩ := Insert_fields h₁
  have hwf₁ : t₁.WF := WF_of_fields hwf hh₁ hm₁ hl₁
  obtain ⟨hh₂, hm₂, hl₂⟩ := Insert_fields h₂
  have hwf₂ : t₂.WF := WF_of_fields hwf₁ hh₂ hm₂ hl₂
  obtain ⟨h0, hlt, ht₁⟩ := Insert_some_eq h₁
  obtain ⟨h0', hlt', ht₂⟩ := Insert_some_eq h₂
  have hi : (t.hash k t.m).toNat < t.table.length := by omega
  have hb₁ : t₁.bucket (t.hash k t.m).toNat
      = insertLoop k v₁ (t.bucket (t.hash k t.m).toNat) := by
    rw [ht₁]
    exact bucket_set_self hi _
  have hidx : (t₁.hash k t₁.m).toNat = (t.hash k t.m).toNat := by rw [hh₁, hm₁]
  have hi₁ : (t₁.hash k t₁.m).toNat < t₁.table.length := by
    rw [hidx, hl₁]
    exact hi
  have hb₂ : t₂.bucket (t.hash k t.m).toNat
      = insertLoop k v₂ (t₁.bucket (t₁.hash k t₁.m).toNat) := by
    rw [ht₂, ← hidx]
    exact bucket_set_self hi₁ _
  have hsome : getLoop k (t₁.bucket (t₁.hash k t₁.m).toNat) = some v₁ := by
    rw [hidx, hb₁]
    exact getLoop_insertLoop_self k v₁ _
  have hkeys : (t₂.bucket (t.hash k t.m).toNat).map kv.Key
      = (t₁.bucket (t.hash k t.m).toNat).map kv.Key := by
    rw [hb₂, insertLoop_keys_of_some hsome v₂, hidx]
  refine ⟨?_, ?_, keyIdx_congr k hkeys⟩
  · rw [Get_eq_getLoop hwf₂ k]
    have hidx₂ : (t₂.hash k t₂.m).toNat = (t.hash k t.m).toNat := by
      rw [hh₂, hm₂, hidx]
    rw [hidx₂, hb₂, getLoop_insertLoop_self]
  · have hlen := congrArg List.length hkeys
    simpa using hlen

/-- Witness for C3 at `T0` with key `2`, values `5` then `9`. -/
theorem insert_twice_overwrite_witness :
    T0.WF ∧ (5 : Int) ≠ 9 ∧ T0.Insert 2 5 = some T1 ∧ T1.Insert 2 9 = some T1b ∧
      (T1b.Get 2 = some (9, true) ∧
        (T1b.bucket (T0.hash 2 T0.m).toNat).length
          = (T1.bucket (T0.hash 2 T0.m).toNat).length ∧
        keyIdx 2 (T1b.bucket (T0.hash 2 T0.m).toNat)
          = keyIdx 2 (T1.bucket (T0.hash 2 T0.m).toNat)) :=
  ⟨T0_wf, by decide, rfl, rfl, insert_twice_overwrite T0_wf 2 (by decide) rfl rfl⟩

/-- Claim C4: under the precondition that the hash function returns an
index in `[0, bucketCount)` for every key, in every state reachable from
a fresh table by a sequence of `Insert` and `Get` operations, every key
present in the table has exactly one entry across all buckets, and any
bucket containing it is the one at index `hash key bucketCount`. -/
theorem reachable_key_unique [DecidableEq K] [Inhabited V] (m : Int)
    (hashFn : K → Int → Int) (t₀ t : Table K V) (ops : List (Op K V)) (k : K)
    (hnew : New m hashFn = some t₀) (hr : HashInRange hashFn m)
    (hrun : runOps t₀ ops = some t) (hk : t.MemKey k) :
    countKey t k = 1 ∧
      ∀ j, j < t.table.length → (∃ e ∈ t.bucket j, e.Key = k) →
        (j : Int) = t.hash k t.m :=
  Inv_countKey (runOps_Inv (New_Inv hnew) hrun) hk

/-- Witness for C4: after inserting key `1` twice and colliding key `4`,
key `4` has exactly one entry and it lies in bucket `1 = hash0 4 3`. -/
theorem reachable_key_unique_witness :
    New 3 hash0 = some T0 ∧ HashInRange hash0 3 ∧
      runOps T0 [Op.insert 1 10, Op.insert 1 20, Op.insert 4 40, Op.get 1] = some T4 ∧
      T4.MemKey 4 ∧
      (countKey T4 4 = 1 ∧
        ∀ j, j < T4.table.length → (∃ e ∈ T4.bucket j, e.Key = 4) →
          (j : Int) = T4.hash 4 T4.m) :=
  ⟨rfl, mod3_in_range, rfl,
    ⟨[{ Key := 1, Value := 20 }, { Key := 4, Value := 40 }], by decide,
      { Key := 4, Value := 40 }, by decide, rfl⟩,
    reachable_key_unique 3 hash0 T0 T4
      [Op.insert 1 10, Op.insert 1 20, Op.insert 4 40, Op.get 1] 4 rfl mod3_in_range rfl
      ⟨[{ Key := 1, Value := 20 }, { Key := 4, Value := 40 }], by decide,
        { Key := 4, Value := 40 }, by decide, rfl⟩⟩

/-- Claim C5: for every bucket count `m > 0` and every hash function,
`New` returns a table with exactly `m` buckets, each empty, storing the
given hash function and bucket count. -/
theorem new_buckets_empty (m : Int) (hashFn : K → Int → Int) (hm : 0 < m) :
    ∃ t : Table K V, New m hashFn = some t ∧ t.hash = hashFn ∧ t.m = m ∧
      (t.table.length : Int) = m ∧ ∀ b ∈ t.table, b = [] := by
  refine ⟨{ hash := hashFn, m := m, table := List.replicate m.toNat [] }, ?_, rfl, rfl, ?_, ?_⟩
  · simp [New, not_lt.mpr hm.le]
  · simp only [List.length_replicate]
    omega
  · intro b hb
    exact List.eq_of_mem_replicate hb

/-- Witness for C5 at `m = 3`. -/
theorem new_buckets_empty_witness :
    (0 : Int) < 3 ∧
      ∃ t : Table Int Int, New 3 hash0 = some t ∧ t.hash = hash0 ∧ t.m = 3 ∧
        (t.table.length : Int) = 3 ∧ ∀ b ∈ t.table, b = [] :=
  ⟨by decide, new_buckets_empty 3 hash0 (by decide)⟩

/-- Claim C6: on a well-formed table, inserting a key that is not
present in its target bucket appends the new entry `(k, v)` at the end
of the bucket at index `hash k m`, so bucket order reflects first-insert
order. -/
theorem insert_new_key_appends [DecidableEq K] {t : Table K V} (hwf : t.WF) (k : K) (v : V)
    (habs : getLoop k (t.bucket (t.hash k t.m).toNat) = none) :
    ∃ t', t.Insert k v = some t' ∧
      t'.bucket (t.hash k t.m).toNat
        = t.bucket (t.hash k t.m).toNat ++ [{ Key := k, Value := v }] := by
  refine ⟨_, Insert_eq_set hwf k v, ?_⟩
  have hb := hash_bounds hwf k
  have hi : (t.hash k t.m).toNat < t.table.length := by omega
  rw [bucket_set_self hi, insertLoop_append_of_none habs]

/-- Witness for C6: inserting key `5` into `T2`, whose target bucket `2`
already holds colliding key `2`, appends at the end of bucket `2`. -/
theorem insert_new_key_appends_witness :
    T2.WF ∧ getLoop 5 (T2.bucket (T2.hash 5 T2.m).toNat) = none ∧
      ∃ t', T2.Insert 5 50 = some t' ∧
        t'.bucket (T2.hash 5 T2.m).toNat
          = T2.bucket (T2.hash 5 T2.m).toNat ++ [{ Key := 5, Value := 50 }] :=
  ⟨T2_wf, rfl, insert_new_key_appends T2_wf 5 50 rfl⟩

/-- Claim C7: under the in-range precondition on the hash function, the
bucket-array indexing performed by `Get` and `Insert` is always in
bounds — both return `some`, the `none` (panic) branch of the embedded
indexing being unreachable; and since neither operation checks the hash
output, a table violating the precondition makes both operations hit
the out-of-range branch. -/
theorem index_in_bounds [DecidableEq K] [Inhabited V] (t : Table K V) (hwf : t.WF)
    (k : K) (v : V) :
    (t.Get k).isSome = true ∧ (t.Insert k v).isSome = true ∧
      ∃ (u : Table Int Int) (q w : Int), ¬ u.WF ∧ u.Get q = none ∧ u.Insert q w = none := by
  refine ⟨?_, ?_, BadT, 0, 0, ?_, rfl, rfl⟩
  · rw [Get_eq_getLoop hwf k]
    cases getLoop k (t.bucket (t.hash k t.m).toNat) <;> rfl
  · rw [Insert_eq_set hwf k v]
    rfl
  · intro hwfb
    exact absurd (hwfb.2 0).2 (by decide)

/-- Witness for C7 at `T0` with key `7`. -/
theorem index_in_bounds_witness :
    T0.WF ∧ ((T0.Get 7).isSome = true ∧ (T0.Insert 7 1).isSome = true ∧
      ∃ (u : Table Int Int) (q w : Int), ¬ u.WF ∧ u.Get q = none ∧ u.Insert q w = none) :=
  ⟨T0_wf, index_in_bounds T0 T0_wf 7 1⟩

/-- Claim C8: a completed `Get` call leaves the receiver table
unchanged, and a completed `Insert k v` changes at most the bucket at
index `hash k m`: the bucket count, the stored hash function, the
number of buckets and every other bucket are identical before and
after. -/
theorem insert_frame [DecidableEq K] [Inhabited V] (t t' : Table K V) (k : K) (v : V)
    (hins : t.Insert k v = some t') :
    (∀ (u u' : Table K V) (q : K), applyOp u (Op.get q) = some u' → u' = u) ∧
      t'.m = t.m ∧ t'.hash = t.hash ∧ t'.table.length = t.table.length ∧
      ∀ j, j ≠ (t.hash k t.m).toNat → t'.bucket j = t.bucket j := by
  obtain ⟨h0, hlt, ht'⟩ := Insert_some_eq hins
  obtain ⟨hh, hm, hl⟩ := Insert_fields hins
  refine ⟨fun u u' q h => applyOp_get_eq h, hm, hh, hl, ?_⟩
  intro j hj
  rw [ht']
  exact bucket_set_ne hj _

/-- Witness for C8 at `T0.Insert 2 5 = T1`. -/
theorem insert_frame_witness :
    T0.Insert 2 5 = some T1 ∧
      ((∀ (u u' : Table Int Int) (q : Int), applyOp u (Op.get q) = some u' → u' = u) ∧
        T1.m = T0.m ∧ T1.hash = T0.hash ∧ T1.table.length = T0.table.length ∧
        ∀ j, j ≠ (T0.hash 2 T0.m).toNat → T1.bucket j = T0.bucket j) :=
  ⟨rfl, insert_frame T0 T1 2 5 rfl⟩

/-- Claim C9: across any sequence of `Insert` and `Get` operations no
bucket ever shrinks, and a single `Insert` either leaves its target
bucket's length unchanged (overwrite) or grows it by exactly one
(append); no operation removes an entry. -/
theorem buckets_monotone [DecidableEq K] [Inhabited V] (t t' : Table K V)
    (ops : List (Op K V)) (hrun : runOps t ops = some t') :
    (∀ j, (t.bucket j).length ≤ (t'.bucket j).length) ∧
      ∀ (u u' : Table K V) (k : K) (v : V), u.Insert k v = some u' →
        ∀ j, (u'.bucket j).length = (u.bucket j).length ∨
          (u'.bucket j).length = (u.bucket j).length + 1 :=
  ⟨fun j => runOps_bucket_le hrun j, fun _ _ _ _ h j => insert_bucket_length h j⟩

/-- Witness for C9: two colliding inserts from `T0`. -/
theorem buckets_monotone_witness :
    runOps T0 [Op.insert 0 1, Op.insert 3 2] = some T5 ∧
      ((∀ j, (T0.bucket j).length ≤ (T5.bucket j).length) ∧
        ∀ (u u' : Table Int Int) (k : Int) (v : Int), u.Insert k v = some u' →
          ∀ j, (u'.bucket j).length = (u.bucket j).length ∨
            (u'.bucket j).length = (u.bucket j).length + 1) :=
  ⟨rfl, buckets_monotone T0 T5 [Op.insert 0 1, Op.insert 3 2] rfl⟩

/-- Claim C10: on a well-formed table, a key inserted with the zero
value of `V` is afterwards reported by `Get` as `(zero, true)`, while an
absent key yields `(zero, false)`: the boolean flag, not the value,
distinguishes presence with the zero value from absence. -/
theorem insert_zero_value [DecidableEq K] [Inhabited V] (t : Table K V) (hwf : t.WF)
    (k : K) :
    (∃ t', t.Insert k (default : V) = some t' ∧ t'.Get k = some ((default : V), true)) ∧
      (¬ t.MemKey k → t.Get k = some ((default : V), false)) :=
  ⟨⟨_, Insert_eq_set hwf k default, get_insert_self hwf (Insert_eq_set hwf k default)⟩,
    fun habs => get_not_mem hwf habs⟩

/-- Witness for C10 at `T2` with key `7` (zero value of `Int` is `0`). -/
theorem insert_zero_value_witness :
    T2.WF ∧ ((∃ t', T2.Insert 7 (default : Int) = some t' ∧
        t'.Get 7 = some ((default : Int), true)) ∧
      (¬ T2.MemKey 7 → T2.Get 7 = some ((default : Int), false))) :=
  ⟨T2_wf, insert_zero_value T2 T2_wf 7⟩

end Hashtable
